import Mathlib

/-!
Verification development for a workload-profiling toolkit.

The toolkit has two analysis pipelines:
* `infer_addr_range.py` / `infer_dominant_range.py`: streaming bucket-based
  address-range inference (per-bucket count/min/max, dominant-bucket and
  contiguous-window selection).
* `hot_persistence.py`: Top-K hot-page persistence tracking across time bins.

All definitions below are shallow embeddings of the Python sources:
machine integers become `Nat`/`Int`, Python floats (sample times) become `ℚ`,
`collections.Counter` becomes an insertion-ordered key list plus a count
function, and fatal `SystemExit` paths become `Except String`.
-/

set_option allowUnsafeReducibility true
attribute [semireducible] Rat.add Rat.sub Rat.mul Rat.inv Rat.ofScientific

/-! ## Bucket aggregation (`infer_addr_range.py` lines 98-101) -/

/-- `mins[b] = a if b not in mins or a < mins[b] else mins[b]`. -/
def mergeMin (m : Option Nat) (a : Nat) : Nat :=
  match m with
  | none => a
  | some v => if a < v then a else v

/-- `maxs[b] = a if b not in maxs or a > maxs[b] else maxs[b]`. -/
def mergeMax (m : Option Nat) (a : Nat) : Nat :=
  match m with
  | none => a
  | some v => if a > v then a else v

/-- The per-bucket statistics proper: count, observed min and observed max for
every bucket key (`none` / count `0` meaning the bucket is absent). -/
@[ext]
structure CoreStats where
  counts : Nat → Nat
  mins : Nat → Option Nat
  maxs : Nat → Option Nat

/-- One accepted sample updates the bucket `a >> shift`
(`counts[b] += 1` plus the min/max merges). -/
def coreStep (shift : Nat) (st : CoreStats) (a : Nat) : CoreStats :=
  { counts := fun k => if k = a >>> shift then st.counts k + 1 else st.counts k
    mins := fun k => if k = a >>> shift then some (mergeMin (st.mins k) a) else st.mins k
    maxs := fun k => if k = a >>> shift then some (mergeMax (st.maxs k) a) else st.maxs k }

/-- Full bucket state: the `CoreStats` plus the `Counter` iteration order
(first-insertion order of bucket keys), which Python's `Counter` preserves and
which `most_common` uses to break ties. -/
@[ext]
structure BucketStats where
  keysOrder : List Nat
  core : CoreStats

def initStats : BucketStats :=
  { keysOrder := []
    core := { counts := fun _ => 0, mins := fun _ => none, maxs := fun _ => none } }

/-- `counts[b] += 1; mins[b] = ...; maxs[b] = ...` for one accepted address. -/
def addStep (shift : Nat) (st : BucketStats) (a : Nat) : BucketStats :=
  { keysOrder :=
      if a >>> shift ∈ st.keysOrder then st.keysOrder else st.keysOrder ++ [a >>> shift]
    core := coreStep shift st.core a }

/-- Aggregating a list of already-accepted sample addresses. -/
def aggregate (shift : Nat) (addrs : List Nat) : BucketStats :=
  addrs.foldl (addStep shift) initStats

/-! ## Ingestion loop of `infer_addr_range.py` (lines 78-104) -/

/-- An input line, reduced to the fields the loop inspects after tokenizing:
the event token (already stripped of a trailing colon) and the parsed hex
address.  Lines with fewer than three tokens or an unparsable address are
skipped by the source before reaching any of the modeled tests, so they are
omitted here. -/
structure RangeLine where
  event : String
  addr : Nat

structure RangeCfg where
  event : String
  bucketBits : Nat
  dropKernel : Bool
  maxLines : Nat

/-- The kernel-address filter of `infer_addr_range.py` (line 96):
`drop_kernel and a >= 0x8000_0000_0000_0000`. -/
def rangeKernelDrop (dropKernel : Bool) (a : Nat) : Bool :=
  dropKernel && decide (0x8000000000000000 ≤ a)

/-- The user-only filter of `infer_dominant_range.py` (lines 40, 53):
`args.user_only and a >= 0x0000800000000000`.  (`--user-only` is declared with
`action="store_true", default=True`, so it is always enabled.) -/
def userOnlyDrop (userOnly : Bool) (a : Nat) : Bool :=
  userOnly && decide (0x0000800000000000 ≤ a)

/-- Aggregation state of the main loop: bucket stats plus the accepted-line
counter `n`. -/
structure AggSt where
  stats : BucketStats
  n : Nat

def initAgg : AggSt := { stats := initStats, n := 0 }

/-- The reading loop of `infer_addr_range.py` `main` (lines 78-104): event
filter, zero-address filter, kernel filter, accumulate, and `break` once
`n >= max_lines`. -/
def rangeIngest (cfg : RangeCfg) : List RangeLine → AggSt → AggSt
  | [], st => st
  | l :: rest, st =>
    if l.event ≠ cfg.event then rangeIngest cfg rest st
    else if l.addr = 0 then rangeIngest cfg rest st
    else if rangeKernelDrop cfg.dropKernel l.addr then rangeIngest cfg rest st
    else
      if cfg.maxLines ≤ st.n + 1 then
        { stats := addStep cfg.bucketBits st.stats l.addr, n := st.n + 1 }
      else
        rangeIngest cfg rest { stats := addStep cfg.bucketBits st.stats l.addr, n := st.n + 1 }

/-- Total number of samples recorded in the bucket stats. -/
def sumCounts (st : AggSt) : Nat :=
  (st.stats.keysOrder.map st.stats.core.counts).sum

/-- The ingestion loop of `infer_dominant_range.py` (lines 46-60): the input is
the list of parsed trailing hex tokens; zero addresses and (always-on)
user-only-filtered addresses are skipped, everything else is accumulated.  No
event filter and no line cap exist in this tool. -/
def dominantIngest (shift : Nat) (userOnly : Bool) : List Nat → BucketStats → BucketStats
  | [], st => st
  | a :: rest, st =>
    if a = 0 then dominantIngest shift userOnly rest st
    else if userOnlyDrop userOnly a then dominantIngest shift userOnly rest st
    else dominantIngest shift userOnly rest (addStep shift st a)

/-! ## Dominant-bucket selection (`counts.most_common(1)[0][0]`) -/

/-- `Counter.most_common(1)[0][0]`: the first key, in insertion order, whose
count is maximal (`most_common` is a stable descending sort by count). -/
def mostCommon1 (st : BucketStats) : Nat :=
  st.keysOrder.foldl
    (fun best k => if st.core.counts best < st.core.counts k then k else best)
    st.keysOrder.headI

/-- Dominant-mode output (`infer_addr_range.py` lines 128-131,
`infer_dominant_range.py` lines 65-66):
`(mins[best], maxs[best], counts[best])`. -/
def dominantOutput (st : BucketStats) : Nat × Nat × Nat :=
  ((st.core.mins (mostCommon1 st)).getD 0,
   (st.core.maxs (mostCommon1 st)).getD 0,
   st.core.counts (mostCommon1 st))

/-! ## Pre-selection drops (`infer_addr_range.py` lines 109-126) -/

/-- Stable insert for a descending sort by the key `cnt`: `x` is placed before
the first element strictly smaller than it, hence after earlier elements of
equal `cnt` (the stability of Python's `sorted(..., reverse=True)`). -/
def insertByDesc (cnt : Nat → Nat) (x : Nat) : List Nat → List Nat
  | [] => [x]
  | y :: ys => if cnt y ≤ cnt x then x :: y :: ys else y :: insertByDesc cnt x ys

/-- Stable descending sort by the key `cnt`. -/
def sortByDesc (cnt : Nat → Nat) : List Nat → List Nat
  | [] => []
  | x :: xs => insertByDesc cnt x (sortByDesc cnt xs)

/-- Drop of the `dt` highest-address buckets (lines 110-115):
`sorted(counts.keys(), reverse=True)[:dt]` is popped from all three maps,
guarded by `dt > 0 and len(counts) > dt`. -/
def dropTop (dt : Nat) (st : BucketStats) : BucketStats :=
  if 0 < dt ∧ dt < st.keysOrder.length then
    { keysOrder :=
        st.keysOrder.filter (fun k => decide (k ∉ (sortByDesc (fun k => k) st.keysOrder).take dt))
      core :=
        { counts := fun k =>
            if k ∈ (sortByDesc (fun k => k) st.keysOrder).take dt then 0 else st.core.counts k
          mins := fun k =>
            if k ∈ (sortByDesc (fun k => k) st.keysOrder).take dt then none else st.core.mins k
          maxs := fun k =>
            if k ∈ (sortByDesc (fun k => k) st.keysOrder).take dt then none else st.core.maxs k } }
  else st

/-- Whether bucket `k` survives the minimum-samples filter: it is a current
key of the counter and its count reaches the threshold. -/
def surviveThr (thr : Nat) (st : BucketStats) (k : Nat) : Bool :=
  decide (k ∈ st.keysOrder) && decide (thr ≤ st.core.counts k)

/-- Threshold drop (lines 120-126): rebuilds the counter from
`{b: c for b, c in counts.items() if c >= thr}` and restricts `mins`/`maxs` to
the surviving keys; only applied when the threshold is positive. -/
def thrDrop (thr : Nat) (st : BucketStats) : BucketStats :=
  if 0 < thr then
    { keysOrder := st.keysOrder.filter (surviveThr thr st)
      core :=
        { counts := fun k => if surviveThr thr st k then st.core.counts k else 0
          mins := fun k => if surviveThr thr st k then st.core.mins k else none
          maxs := fun k => if surviveThr thr st k then st.core.maxs k else none } }
  else st

/-! ## Window-mode selection (`infer_addr_range.py` lines 133-191)

The final counts are abstracted as the list `keys` of observed bucket keys
together with the count function `c` vanishing off `keys`.  Python bucket keys
are non-negative, but the candidate arithmetic `b - w + 1` lives in `Int`,
exactly as Python's unbounded ints do. -/

/-- Total sample count of the window `[s, s+w)`:
`sum(counts.get(s + off, 0) for off in range(w))`. -/
def windowSum (c : Int → Nat) (w : Nat) (s : Int) : Nat :=
  ∑ off ∈ Finset.range w, c (s + off)

/-- Python `min(keys)` over a non-empty list. -/
def listMin (l : List Int) : Int :=
  l.tail.foldl min l.headI

/-- Python `max(keys)` over a non-empty list. -/
def listMax (l : List Int) : Int :=
  l.tail.foldl max l.headI

/-- The raw candidate starts of the `best` strategy (lines 155-159):
`{b | b observed} ∪ {b - w + 1 | b observed}` (duplicates removed, as in the
Python `set`). -/
def candStarts (keys : List Int) (w : Nat) : List Int :=
  (keys ++ keys.map (fun b => b - (w : Int) + 1)).dedup

/-- Ascending insertion for the sorted candidate list. -/
def insertAsc (x : Int) : List Int → List Int
  | [] => [x]
  | y :: ys => if x ≤ y then x :: y :: ys else y :: insertAsc x ys

/-- Ascending sort (`sorted(...)` over the candidate set). -/
def sortAsc : List Int → List Int
  | [] => []
  | x :: xs => insertAsc x (sortAsc xs)

/-- The scan of lines 169-178: fold over the candidates keeping
`(best_s, best_sum)`, starting from `(cands[0], -1)` and updating on strict
improvement. -/
def bestLoop (c : Int → Nat) (w : Nat) : List Int → Int × Int → Int × Int
  | [], st => st
  | s :: rest, st =>
    if st.2 < (windowSum c w s : Int) then bestLoop c w rest (s, (windowSum c w s : Int))
    else bestLoop c w rest st

/-- Feasible upper start (lines 161-164): `hi = b_max - w + 1`, replaced by
`b_min` when `hi < lo` (`lo` stays `b_min` in both cases). -/
def feasHi (keys : List Int) (w : Nat) : Int :=
  if listMax keys - (w : Int) + 1 < listMin keys then listMin keys
  else listMax keys - (w : Int) + 1

/-- The sorted, clamped candidate list of lines 165-167, including the
fallback singleton `[max(lo, min(b_min, hi))]` for an empty candidate list. -/
def candList (keys : List Int) (w : Nat) : List Int :=
  if sortAsc ((candStarts keys w).filter
      (fun s => decide (listMin keys ≤ s ∧ s ≤ feasHi keys w))) = [] then
    [max (listMin keys) (min (listMin keys) (feasHi keys w))]
  else
    sortAsc ((candStarts keys w).filter
      (fun s => decide (listMin keys ≤ s ∧ s ≤ feasHi keys w)))

/-- The whole `best` branch: returns `(best_s, best_sum)`. -/
def bestSearch (c : Int → Nat) (keys : List Int) (w : Nat) : Int × Int :=
  bestLoop c w (candList keys w) ((candList keys w).headI, -1)

/-! ## Hot-page persistence (`hot_persistence.py`) -/

/-- Python's `a & m` for a non-negative `a` and an arbitrary-precision int
mask `m` (two's complement): for `m < 0` the mask's bit pattern is the
complement of `-m - 1`, so `a & m = a - (a & (-m - 1))`. -/
def pyAnd (a : Nat) (m : Int) : Nat :=
  if 0 ≤ m then a &&& m.toNat
  else a - (a &&& ((-m) - 1).toNat)

/-- `Counter` key list in first-insertion order for a stream of pages. -/
def counterKeys : List Nat → List Nat
  | [] => []
  | p :: ps => p :: (counterKeys ps).filter (fun q => decide (q ≠ p))

/-- `topk_pages` (lines 67-71): the set of keys of `counter.most_common(k)`,
i.e. of the first `k` entries of the stable descending sort by count.  The
counter is represented by the stream `l` of recorded pages. -/
def topkPages (l : List Nat) (k : Int) : Finset Nat :=
  ((sortByDesc (fun p => l.count p) (counterKeys l)).take k.toNat).toFinset

/-- The per-bin persistence value (lines 283-287): `0.0` for an empty bin hot
set, else `100.0 * len(base_hot & hot_i) / len(base_hot)`. -/
def persistPct (baseHot hotI : Finset Nat) : ℚ :=
  if hotI = ∅ then 0 else 100 * ((baseHot ∩ hotI).card : ℚ) / (baseHot.card : ℚ)

/-- A parsed sample record `(time, event, addr)` (regex `LINE_RE` already
matched; unmatched lines are skipped by the source before any modeled test). -/
structure HSample where
  time : ℚ
  event : String
  addr : Nat

structure HConfig where
  eventFilter : String
  addrMin : Option Nat
  addrMax : Option Nat
  pageSize : Int
  refStart : ℚ
  refWindow : ℚ
  topk : Int
  binSize : ℚ
  maxTime : Option ℚ

/-- `addr_min is not None and a < addr_min`. -/
def dropBelow (am : Option Nat) (a : Nat) : Bool :=
  match am with
  | none => false
  | some m => decide (a < m)

/-- `addr_max is not None and a >= addr_max`. -/
def dropAtLeast (am : Option Nat) (a : Nat) : Bool :=
  match am with
  | none => false
  | some m => decide (m ≤ a)

/-- `args.max_time is not None and t > max_time`. -/
def dropLate (mt : Option ℚ) (t : ℚ) : Bool :=
  match mt with
  | none => false
  | some m => decide (m < t)

/-- Ingestion state of `hot_persistence.py` `main` (lines 226-232): first and
last accepted absolute timestamps, the baseline page counter, and the per-bin
page counters (`bins` maps a bin index to its recorded pages; `binKeys` is the
set of indices that received at least one sample). -/
structure IngestSt where
  t0 : Option ℚ
  tLast : Option ℚ
  baseline : List Nat
  binKeys : Finset Int
  bins : Int → List Nat

def initH : IngestSt :=
  { t0 := none, tLast := none, baseline := [], binKeys := ∅, bins := fun _ => [] }

/-- One loop iteration (lines 236-267): event filter, zero-address filter,
optional address bounds, then `t0`/`t_last` bookkeeping, relative-time and
`max_time` cuts, page masking with `page_mask = ~(page_size - 1) = -page_size`,
and classification into the baseline window or the bin
`int((t - ref_end) // bin_size)`. -/
def hstep (cfg : HConfig) (st : IngestSt) (s : HSample) : IngestSt :=
  if s.event ≠ cfg.eventFilter then st
  else if s.addr = 0 then st
  else if dropBelow cfg.addrMin s.addr then st
  else if dropAtLeast cfg.addrMax s.addr then st
  else if s.time - st.t0.getD s.time < 0 then
    { st with t0 := some (st.t0.getD s.time), tLast := some s.time }
  else if dropLate cfg.maxTime (s.time - st.t0.getD s.time) then
    { st with t0 := some (st.t0.getD s.time), tLast := some s.time }
  else if cfg.refStart ≤ s.time - st.t0.getD s.time ∧
      s.time - st.t0.getD s.time < cfg.refStart + cfg.refWindow then
    { st with
        t0 := some (st.t0.getD s.time)
        tLast := some s.time
        baseline := st.baseline ++ [pyAnd s.addr (-cfg.pageSize)] }
  else if cfg.refStart + cfg.refWindow ≤ s.time - st.t0.getD s.time then
    { st with
        t0 := some (st.t0.getD s.time)
        tLast := some s.time
        binKeys := insert
          (⌊(s.time - st.t0.getD s.time - (cfg.refStart + cfg.refWindow)) / cfg.binSize⌋)
          st.binKeys
        bins := fun j =>
          if j = ⌊(s.time - st.t0.getD s.time - (cfg.refStart + cfg.refWindow)) / cfg.binSize⌋ then
            st.bins j ++ [pyAnd s.addr (-cfg.pageSize)]
          else st.bins j }
  else { st with t0 := some (st.t0.getD s.time), tLast := some s.time }

def ingestH (cfg : HConfig) (input : List HSample) : IngestSt :=
  input.foldl (hstep cfg) initH

/-- `max(bins.keys(), default=-1)` (line 276). -/
def binMaxIdx (st : IngestSt) : Int :=
  st.binKeys.max.unbot' (-1)

/-- The reported series (lines 280-288): one persistence value per bin index
from `0` to `max_idx` inclusive. -/
def pctStillHot (baseHot : Finset Nat) (st : IngestSt) (k : Int) (maxIdx : Int) : List ℚ :=
  (List.range (maxIdx + 1).toNat).map fun i : Nat =>
    persistPct baseHot (topkPages (st.bins (i : Int)) k)

/-- Fatal message of line 220 (`--ref-window must be > 0`). -/
def msgRefWindow : String := "--ref-window must be > 0"

/-- Fatal message of line 224 (`--bin must be > 0`). -/
def msgBin : String := "--bin must be > 0"

/-- Fatal message of line 270; the source interpolates the event name and the
input path, elided here. -/
def msgNoSamples : String := "No samples found for event"

/-- Fatal message of line 274. -/
def msgBaseline : String :=
  "Baseline window has no samples; increase --ref-window or adjust filtering."

/-- Fatal message of line 278. -/
def msgNoBins : String :=
  "No samples found after baseline window; increase --max-time/recording duration."

/-- The analysis core of `hot_persistence.py` `main` (lines 209-288): config
validation, ingestion, the three fatal data checks, and the persistence
series.  The `SystemExit` paths become `Except.error`; rendering (a boundary
collaborator) is outside the result. -/
def hotMain (cfg : HConfig) (input : List HSample) : Except String (List ℚ) :=
  if cfg.refStart + cfg.refWindow ≤ cfg.refStart then .error msgRefWindow
  else if cfg.binSize ≤ 0 then .error msgBin
  else if (ingestH cfg input).t0 = none then .error msgNoSamples
  else if topkPages (ingestH cfg input).baseline cfg.topk = ∅ then .error msgBaseline
  else if binMaxIdx (ingestH cfg input) < 0 then .error msgNoBins
  else .ok (pctStillHot (topkPages (ingestH cfg input).baseline cfg.topk)
      (ingestH cfg input) cfg.topk (binMaxIdx (ingestH cfg input)))

/-! ## Decidability of result comparison, and concrete instances -/

instance {ε α : Type} [DecidableEq ε] [DecidableEq α] : DecidableEq (Except ε α) :=
  fun a b =>
  match a, b with
  | .error x, .error y =>
      match decEq x y with
      | isTrue h => isTrue (congrArg Except.error h)
      | isFalse h => isFalse (fun hh => h (Except.error.inj hh))
  | .ok x, .ok y =>
      match decEq x y with
      | isTrue h => isTrue (congrArg Except.ok h)
      | isFalse h => isFalse (fun hh => h (Except.ok.inj hh))
  | .error _, .ok _ => isFalse (fun hh => Except.noConfusion hh)
  | .ok _, .error _ => isFalse (fun hh => Except.noConfusion hh)

/-- The spec's concrete dominant-mode scenario: three samples, all matching
the event filter, bucket-bits 30. -/
def c7input : List RangeLine :=
  [⟨"ev", 0x100000000⟩, ⟨"ev", 0x100000010⟩, ⟨"ev", 0x200000000⟩]

def c7cfg : RangeCfg := ⟨"ev", 30, true, 200000⟩

/-- Three equal-count buckets (for probing the top-`N` drop). -/
def exA : BucketStats :=
  { keysOrder := [1, 2, 3]
    core :=
      { counts := fun k => if k = 1 ∨ k = 2 ∨ k = 3 then 5 else 0
        mins := fun k => if k = 1 ∨ k = 2 ∨ k = 3 then some k else none
        maxs := fun k => if k = 1 ∨ k = 2 ∨ k = 3 then some k else none } }

/-- A small bucket below threshold plus a large top bucket (for probing the
interaction of the two drops). -/
def exB : BucketStats :=
  { keysOrder := [1, 2]
    core :=
      { counts := fun k => if k = 1 then 500 else if k = 2 then 2000 else 0
        mins := fun k => if k = 1 ∨ k = 2 then some k else none
        maxs := fun k => if k = 1 ∨ k = 2 then some k else none } }

/-- Hot-persistence configuration used for concrete runs. -/
def cfgW : HConfig := ⟨"ev", none, none, 4096, 0, 1, 1024, 5, none⟩

/-- Two samples: one in the baseline window, one landing in bin 2. -/
def inputW : List HSample := [⟨10, "ev", 0x1000⟩, ⟨21, "ev", 0x2000⟩]

/-- Same run but with the non-power-of-two page size 3. -/
def cfgPS3 : HConfig := ⟨"ev", none, none, 3, 0, 1, 1024, 5, none⟩

/-- An invalid configuration: `--ref-window` is 0. -/
def cfgBadRef : HConfig := ⟨"ev", none, none, 4096, 0, 0, 1024, 5, none⟩

/-- A cap of one accepted line (for probing the `max_lines` cutoff). -/
def capCfg : RangeCfg := ⟨"ev", 0, true, 1⟩

def lineA : RangeLine := ⟨"ev", 1⟩

def lineB : RangeLine := ⟨"ev", 2⟩

/-- Counts for a two-bucket window-search instance on keys `[0, 2]`. -/
def c1counts : Int → Nat :=
  fun b => if b = 0 then 3 else if b = 2 then 5 else 0

/-! # Theorems -/

/-! ## Persistence metric bounds (Hot-Set Tracker) -/

/-- Claim C2: for every non-empty baseline hot set `B` and every bin hot set
`H`, the reported persistence percentage lies in `[0, 100]`, equals `100` iff
`H ⊇ B`, and equals `0` iff `B` and `H` are disjoint. -/
theorem persistence_bounds (B H : Finset Nat) (hB : B.Nonempty) :
    0 ≤ persistPct B H ∧ persistPct B H ≤ 100 ∧
    (persistPct B H = 100 ↔ B ⊆ H) ∧ (persistPct B H = 0 ↔ Disjoint B H) := by
  have hn : 0 < (B.card : ℚ) := by exact_mod_cast Finset.card_pos.mpr hB
  have hk : (B ∩ H).card ≤ B.card := Finset.card_le_card Finset.inter_subset_left
  by_cases hH : H = ∅
  · subst hH
    simp only [persistPct, if_pos rfl]
    refine ⟨le_refl 0, by norm_num, ?_, ?_⟩
    · constructor
      · intro h; norm_num at h
      · intro h
        exact absurd (Finset.subset_empty.mp h) hB.ne_empty
    · simp
  · rw [persistPct, if_neg hH]
    have hkq : ((B ∩ H).card : ℚ) ≤ (B.card : ℚ) := by exact_mod_cast hk
    have hkq0 : (0:ℚ) ≤ ((B ∩ H).card : ℚ) := by positivity
    refine ⟨by positivity, ?_, ?_, ?_⟩
    · rw [div_le_iff₀ hn]
      nlinarith
    · rw [div_eq_iff hn.ne']
      constructor
      · intro h
        have hcard : ((B ∩ H).card : ℚ) = (B.card : ℚ) := by linarith
        have hcard' : (B ∩ H).card = B.card := by exact_mod_cast hcard
        have : B ∩ H = B :=
          Finset.eq_of_subset_of_card_le Finset.inter_subset_left (le_of_eq hcard'.symm)
        exact Finset.inter_eq_left.mp this
      · intro h
        rw [Finset.inter_eq_left.mpr h]
    · rw [div_eq_iff hn.ne']
      constructor
      · intro h
        have hcard : ((B ∩ H).card : ℚ) = 0 := by linarith
        have hcard' : (B ∩ H).card = 0 := by exact_mod_cast hcard
        exact Finset.disjoint_iff_inter_eq_empty.mpr (Finset.card_eq_zero.mp hcard')
      · intro h
        rw [Finset.disjoint_iff_inter_eq_empty.mp h]
        simp

/-- Witness for `persistence_bounds` at the concrete pair `B = {1}`,
`H = {1, 2}`. -/
theorem persistence_bounds_witness :
    0 ≤ persistPct {1} {1, 2} ∧ persistPct {1} {1, 2} ≤ 100 ∧
    (persistPct {1} {1, 2} = 100 ↔ ({1} : Finset Nat) ⊆ {1, 2}) ∧
    (persistPct {1} {1, 2} = 0 ↔ Disjoint ({1} : Finset Nat) {1, 2}) :=
  persistence_bounds {1} {1, 2} (by decide)

/-! ## Address filters of the two range-inference ingestors -/

/-- Claim C3 (amended): in `infer_addr_range.py` the enabled kernel filter
drops exactly the addresses with the top bit set (`≥ 2^63`); in
`infer_dominant_range.py` the always-enabled user-only filter drops exactly
the addresses `≥ 2^47` — so there the cutoff is not the top bit, and some
addresses below `2^63` are dropped. -/
theorem kernel_filter_thresholds (a : Nat) :
    (rangeKernelDrop true a = true ↔ 2 ^ 63 ≤ a) ∧
    (userOnlyDrop true a = true ↔ 2 ^ 47 ≤ a) := by
  constructor
  · simp only [rangeKernelDrop, Bool.true_and, decide_eq_true_eq]
    norm_num
  · simp only [userOnlyDrop, Bool.true_and, decide_eq_true_eq]
    norm_num

/-- Counterexample to claim C3 as stated: the address `2^47` has its top bit
clear (it is below `2^63`), yet the dominant-range ingestor's default filter
drops it — the sample contributes to no bucket. -/
theorem kernel_filter_threshold_cex :
    userOnlyDrop true (2 ^ 47) = true ∧ (2 ^ 47 : Nat) < 2 ^ 63 ∧
    (dominantIngest 30 true [2 ^ 47] initStats).keysOrder = [] := by
  refine ⟨by norm_num [userOnlyDrop], by norm_num, ?_⟩
  decide

/-! ## Dominant-mode selection -/

theorem foldl_pick_le (f : Nat → Nat) (l : List Nat) (b : Nat) :
    f b ≤ f (l.foldl (fun best k => if f best < f k then k else best) b) := by
  induction l generalizing b with
  | nil => exact le_refl _
  | cons x xs ih =>
    simp only [List.foldl_cons]
    by_cases h : f b < f x
    · rw [if_pos h]
      exact (le_of_lt h).trans (ih x)
    · rw [if_neg h]
      exact ih b

theorem foldl_pick_mem_le (f : Nat → Nat) (l : List Nat) (b k : Nat) (hk : k ∈ l) :
    f k ≤ f (l.foldl (fun best k => if f best < f k then k else best) b) := by
  induction l generalizing b with
  | nil => cases hk
  | cons x xs ih =>
    simp only [List.foldl_cons]
    rcases List.mem_cons.mp hk with rfl | h
    · by_cases hbk : f b < f k
      · rw [if_pos hbk]
        exact foldl_pick_le f xs k
      · rw [if_neg hbk]
        exact (Nat.le_of_not_lt hbk).trans (foldl_pick_le f xs b)
    · by_cases hbx : f b < f x
      · rw [if_pos hbx]
        exact ih x h
      · rw [if_neg hbx]
        exact ih b h

/-- Claim C7: dominant mode outputs the observed min, observed max and count
of a bucket of maximal count (`dominantOutput` reads exactly those three
fields of `mostCommon1`, which no observed bucket beats), and on the spec's
concrete scenario (`0x100000000`, `0x100000010`, `0x200000000`, bucket-bits
30, all events matching) the output is `(0x100000000, 0x100000010, 2)`. -/
theorem dominant_output_correct :
    (∀ st : BucketStats, ∀ k ∈ st.keysOrder,
        st.core.counts k ≤ st.core.counts (mostCommon1 st)) ∧
    dominantOutput (rangeIngest c7cfg c7input initAgg).stats = (0x100000000, 0x100000010, 2) := by
  constructor
  · intro st k hk
    exact foldl_pick_mem_le st.core.counts st.keysOrder st.keysOrder.headI k hk
  · decide

/-- Witness for `dominant_output_correct`: bucket `4 = 0x100000000 >>> 30` is
an observed bucket of the scenario and its count does not exceed the chosen
dominant bucket's. -/
theorem dominant_output_correct_witness :
    (rangeIngest c7cfg c7input initAgg).stats.core.counts 4 ≤
      (rangeIngest c7cfg c7input initAgg).stats.core.counts
        (mostCommon1 (rangeIngest c7cfg c7input initAgg).stats) :=
  dominant_output_correct.1 (rangeIngest c7cfg c7input initAgg).stats 4 (by decide)

/-! ## The two pre-selection drops -/

theorem thrDrop_keysOrder (thr : Nat) (st : BucketStats) (h : 0 < thr) :
    (thrDrop thr st).keysOrder = st.keysOrder.filter (surviveThr thr st) := by
  unfold thrDrop
  rw [if_pos h]

theorem thrDrop_counts (thr : Nat) (st : BucketStats) (h : 0 < thr) (k : Nat) :
    (thrDrop thr st).core.counts k = if surviveThr thr st k then st.core.counts k else 0 := by
  unfold thrDrop
  rw [if_pos h]

theorem thrDrop_mins (thr : Nat) (st : BucketStats) (h : 0 < thr) (k : Nat) :
    (thrDrop thr st).core.mins k = if surviveThr thr st k then st.core.mins k else none := by
  unfold thrDrop
  rw [if_pos h]

theorem thrDrop_maxs (thr : Nat) (st : BucketStats) (h : 0 < thr) (k : Nat) :
    (thrDrop thr st).core.maxs k = if surviveThr thr st k then st.core.maxs k else none := by
  unfold thrDrop
  rw [if_pos h]

theorem surviveThr_thrDrop (thr : Nat) (st : BucketStats) (hthr : 0 < thr) (k : Nat) :
    surviveThr thr (thrDrop thr st) k = surviveThr thr st k := by
  rw [Bool.eq_iff_iff]
  simp only [surviveThr, Bool.and_eq_true, decide_eq_true_eq, thrDrop_keysOrder thr st hthr,
    thrDrop_counts thr st hthr, List.mem_filter]
  constructor
  · rintro ⟨⟨hk, _, hc⟩, _⟩
    exact ⟨hk, hc⟩
  · rintro ⟨hk, hc⟩
    refine ⟨⟨hk, hk, hc⟩, ?_⟩
    rw [if_pos (show k ∈ st.keysOrder ∧ thr ≤ st.core.counts k from ⟨hk, hc⟩)]
    exact hc

/-- Claim C8 (amended): the minimum-samples threshold drop is idempotent.
(The top-`N` drop is not idempotent, and the two drops are not
order-independent; see the counterexample.) -/
theorem thr_drop_idempotent (thr : Nat) (st : BucketStats) :
    thrDrop thr (thrDrop thr st) = thrDrop thr st := by
  by_cases hthr : 0 < thr
  · have hfun : surviveThr thr (thrDrop thr st) = surviveThr thr st :=
      funext (surviveThr_thrDrop thr st hthr)
    refine BucketStats.ext ?_ ?_
    · rw [thrDrop_keysOrder thr (thrDrop thr st) hthr, hfun, List.filter_eq_self]
      intro a ha
      rw [thrDrop_keysOrder thr st hthr] at ha
      exact List.of_mem_filter ha
    · refine CoreStats.ext ?_ ?_ ?_ <;> funext k
      · rw [thrDrop_counts thr (thrDrop thr st) hthr, hfun, thrDrop_counts thr st hthr]
        by_cases hs : surviveThr thr st k = true
        · rw [if_pos hs]
        · rw [if_neg hs, if_neg hs]
      · rw [thrDrop_mins thr (thrDrop thr st) hthr, hfun, thrDrop_mins thr st hthr]
        by_cases hs : surviveThr thr st k = true
        · rw [if_pos hs]
        · rw [if_neg hs, if_neg hs]
      · rw [thrDrop_maxs thr (thrDrop thr st) hthr, hfun, thrDrop_maxs thr st hthr]
        by_cases hs : surviveThr thr st k = true
        · rw [if_pos hs]
        · rw [if_neg hs, if_neg hs]
  · unfold thrDrop
    rw [if_neg hthr, if_neg hthr]

/-- Counterexample to claim C8 as stated: on three equal-count buckets, a
second top-1 drop removes a further bucket (not idempotent), and on
`{1 ↦ 500, 2 ↦ 2000}` with threshold 1000, applying top-1 drop before or
after the threshold drop leaves different surviving stats (not
order-independent). -/
theorem drops_not_idempotent_cex :
    ((dropTop 1 (dropTop 1 exA)).core.counts 2 ≠ (dropTop 1 exA).core.counts 2 ∧
      (dropTop 1 (dropTop 1 exA)).core.counts 2 = 0 ∧ (dropTop 1 exA).core.counts 2 = 5) ∧
    ((thrDrop 1000 (dropTop 1 exB)).core.counts 2 ≠ (dropTop 1 (thrDrop 1000 exB)).core.counts 2 ∧
      (thrDrop 1000 (dropTop 1 exB)).core.counts 2 = 0 ∧
      (dropTop 1 (thrDrop 1000 exB)).core.counts 2 = 2000) := by
  decide

/-! ## Order-independence of accumulation -/

theorem mergeMin_swap (m : Option Nat) (a b : Nat) :
    mergeMin (some (mergeMin m a)) b = mergeMin (some (mergeMin m b)) a := by
  cases m <;> simp only [mergeMin] <;> split_ifs <;> omega

theorem mergeMax_swap (m : Option Nat) (a b : Nat) :
    mergeMax (some (mergeMax m a)) b = mergeMax (some (mergeMax m b)) a := by
  cases m <;> simp only [mergeMax] <;> split_ifs <;> omega

theorem coreStep_rcomm (shift : Nat) (st : CoreStats) (a b : Nat) :
    coreStep shift (coreStep shift st a) b = coreStep shift (coreStep shift st b) a := by
  by_cases hab : a >>> shift = b >>> shift
  · refine CoreStats.ext ?_ ?_ ?_ <;> funext k <;> simp only [coreStep, hab] <;>
      by_cases h : k = b >>> shift <;> simp [h, mergeMin_swap, mergeMax_swap]
  · refine CoreStats.ext ?_ ?_ ?_ <;> funext k <;> simp only [coreStep] <;>
      by_cases h1 : k = a >>> shift <;> by_cases h2 : k = b >>> shift <;>
      first
        | exact absurd (h1.symm.trans h2) hab
        | simp [h1, h2, hab, Ne.symm hab]

theorem foldl_core_proj (shift : Nat) (l : List Nat) (st : BucketStats) :
    (l.foldl (addStep shift) st).core = l.foldl (coreStep shift) st.core := by
  induction l generalizing st with
  | nil => rfl
  | cons a as ih =>
    simp only [List.foldl_cons]
    rw [ih]
    rfl

theorem perm_foldl_rcomm {α β : Type} (f : β → α → β)
    (hf : ∀ b a a', f (f b a) a' = f (f b a') a) :
    ∀ {l1 l2 : List α}, l1.Perm l2 → ∀ b, l1.foldl f b = l2.foldl f b := by
  intro l1 l2 hp
  induction hp with
  | nil => intro b; rfl
  | cons x _ ih =>
    intro b
    simp only [List.foldl_cons]
    exact ih _
  | swap x y l =>
    intro b
    simp only [List.foldl_cons]
    rw [hf]
  | trans _ _ ih1 ih2 =>
    intro b
    exact (ih1 b).trans (ih2 b)

/-- Claim C6: aggregating the accepted samples in any permutation of input
order yields identical per-bucket counts, observed minima and observed maxima
(the accumulation of lines 98-101 is commutative). -/
theorem aggregate_perm_invariant (shift : Nat) (l1 l2 : List Nat) (hp : l1.Perm l2) (b : Nat) :
    (aggregate shift l1).core.counts b = (aggregate shift l2).core.counts b ∧
    (aggregate shift l1).core.mins b = (aggregate shift l2).core.mins b ∧
    (aggregate shift l1).core.maxs b = (aggregate shift l2).core.maxs b := by
  have hcore : (aggregate shift l1).core = (aggregate shift l2).core := by
    unfold aggregate
    rw [foldl_core_proj, foldl_core_proj]
    exact perm_foldl_rcomm (coreStep shift) (coreStep_rcomm shift) hp initStats.core
  rw [hcore]
  exact ⟨rfl, rfl, rfl⟩

/-- Witness for `aggregate_perm_invariant` on the two-element permutation
`[5, 9] ~ [9, 5]` at bucket 2 (shift 1). -/
theorem aggregate_perm_invariant_witness :
    (aggregate 1 [5, 9]).core.counts 2 = (aggregate 1 [9, 5]).core.counts 2 ∧
    (aggregate 1 [5, 9]).core.mins 2 = (aggregate 1 [9, 5]).core.mins 2 ∧
    (aggregate 1 [5, 9]).core.maxs 2 = (aggregate 1 [9, 5]).core.maxs 2 :=
  aggregate_perm_invariant 1 [5, 9] [9, 5] (by decide) 2

/-! ## The `max_lines` ingestion cap -/

theorem sum_map_update_mem (l : List Nat) (f g : Nat → Nat) (b : Nat)
    (hnd : l.Nodup) (hb : b ∈ l) (hg : ∀ k, k ≠ b → g k = f k) (hgb : g b = f b + 1) :
    (l.map g).sum = (l.map f).sum + 1 := by
  induction l with
  | nil => cases hb
  | cons x xs ih =>
    rcases List.mem_cons.mp hb with rfl | h
    · have hxb : ∀ k ∈ xs, g k = f k := by
        intro k hk
        refine hg k ?_
        intro he
        exact (List.nodup_cons.mp hnd).1 (he ▸ hk)
      simp only [List.map_cons, List.sum_cons, hgb]
      rw [List.map_congr_left hxb]
      omega
    · have hxb : x ≠ b := by
        intro he
        exact (List.nodup_cons.mp hnd).1 (he ▸ h)
      simp only [List.map_cons, List.sum_cons, hg x hxb]
      rw [ih (List.nodup_cons.mp hnd).2 h]
      omega

theorem addStep_invariant (shift : Nat) (st : BucketStats) (a : Nat)
    (hnd : st.keysOrder.Nodup) (hz : ∀ k, k ∉ st.keysOrder → st.core.counts k = 0) :
    (addStep shift st a).keysOrder.Nodup ∧
    (∀ k, k ∉ (addStep shift st a).keysOrder → (addStep shift st a).core.counts k = 0) ∧
    ((addStep shift st a).keysOrder.map (addStep shift st a).core.counts).sum
      = (st.keysOrder.map st.core.counts).sum + 1 := by
  by_cases hb : a >>> shift ∈ st.keysOrder
  · refine ⟨by simpa [addStep, hb] using hnd, ?_, ?_⟩
    · intro k hk
      simp only [addStep, if_pos hb] at hk
      have hkb : k ≠ a >>> shift := fun he => hk (he ▸ hb)
      simp only [addStep, coreStep, if_neg hkb]
      exact hz k hk
    · simp only [addStep, if_pos hb, coreStep]
      exact sum_map_update_mem st.keysOrder st.core.counts _ (a >>> shift) hnd hb
        (fun k hk => if_neg hk) (if_pos rfl)
  · have hdisj : st.keysOrder.Disjoint [a >>> shift] := by
      intro x hx hx2
      rw [List.mem_singleton] at hx2
      exact hb (hx2 ▸ hx)
    refine ⟨?_, ?_, ?_⟩
    · simp only [addStep, if_neg hb]
      exact List.Nodup.append hnd (List.nodup_singleton _) hdisj
    · intro k hk
      simp only [addStep, if_neg hb, List.mem_append, List.mem_singleton] at hk
      push_neg at hk
      simp only [addStep, coreStep, if_neg hk.2]
      exact hz k hk.1
    · simp only [addStep, if_neg hb, coreStep, List.map_append, List.sum_append,
        List.map_cons, List.sum_cons, List.map_nil, List.sum_nil]
      rw [if_pos trivial, hz (a >>> shift) hb]
      have hmap : ∀ k ∈ st.keysOrder,
          (if k = a >>> shift then st.core.counts k + 1 else st.core.counts k)
            = st.core.counts k := by
        intro k hk
        refine if_neg (fun he => hb ?_)
        rw [← he]
        exact hk
      rw [List.map_congr_left hmap]
      omega

theorem rangeIngest_invariant (cfg : RangeCfg) (lines : List RangeLine) (st : AggSt)
    (hnd : st.stats.keysOrder.Nodup)
    (hz : ∀ k, k ∉ st.stats.keysOrder → st.stats.core.counts k = 0)
    (hsum : sumCounts st = st.n) :
    (rangeIngest cfg lines st).stats.keysOrder.Nodup ∧
    (∀ k, k ∉ (rangeIngest cfg lines st).stats.keysOrder →
        (rangeIngest cfg lines st).stats.core.counts k = 0) ∧
    sumCounts (rangeIngest cfg lines st) = (rangeIngest cfg lines st).n := by
  induction lines generalizing st with
  | nil => exact ⟨hnd, hz, hsum⟩
  | cons l rest ih =>
    simp only [rangeIngest]
    split_ifs with h1 h2 h3 h4
    · exact ih st hnd hz hsum
    · exact ih st hnd hz hsum
    · exact ih st hnd hz hsum
    · obtain ⟨hnd', hz', hsum'⟩ := addStep_invariant cfg.bucketBits st.stats l.addr hnd hz
      refine ⟨hnd', hz', ?_⟩
      simp only [sumCounts] at hsum ⊢
      rw [hsum', hsum]
    · obtain ⟨hnd', hz', hsum'⟩ := addStep_invariant cfg.bucketBits st.stats l.addr hnd hz
      refine ih _ hnd' hz' ?_
      simp only [sumCounts] at hsum ⊢
      rw [hsum', hsum]

theorem rangeIngest_n_le (cfg : RangeCfg) (lines : List RangeLine) (st : AggSt)
    (h : st.n < cfg.maxLines) :
    (rangeIngest cfg lines st).n ≤ cfg.maxLines := by
  induction lines generalizing st with
  | nil => exact le_of_lt h
  | cons l rest ih =>
    simp only [rangeIngest]
    split_ifs with h1 h2 h3 h4
    · exact ih st h
    · exact ih st h
    · exact ih st h
    · exact h
    · exact ih _ (lt_of_not_le h4)

theorem rangeIngest_absorb (cfg : RangeCfg) (l1 l2 : List RangeLine) (st : AggSt)
    (hst : st.n < cfg.maxLines)
    (hful : (rangeIngest cfg l1 st).n = cfg.maxLines) :
    rangeIngest cfg (l1 ++ l2) st = rangeIngest cfg l1 st := by
  induction l1 generalizing st with
  | nil =>
    simp only [rangeIngest] at hful
    omega
  | cons l rest ih =>
    simp only [List.cons_append, rangeIngest] at hful ⊢
    split_ifs at hful ⊢ with h1 h2 h3 h4
    · exact ih st hst hful
    · exact ih st hst hful
    · exact ih st hst hful
    · rfl
    · exact ih _ (lt_of_not_le h4) hful

/-- Claim C10: the sum of all bucket counts never exceeds the `max_lines`
cap (for any positive cap; intermediate states are covered because every
prefix of the input is itself an instance of `lines`); once the cap is
reached, all subsequent input lines are ignored entirely; and with more
accepted samples than the cap, the final stats depend on input order (cap 1:
the two orders of the same two accepted lines record different buckets). -/
theorem max_lines_cap (cfg : RangeCfg) (lines l1 l2 : List RangeLine) :
    (1 ≤ cfg.maxLines → sumCounts (rangeIngest cfg lines initAgg) ≤ cfg.maxLines) ∧
    (1 ≤ cfg.maxLines → (rangeIngest cfg l1 initAgg).n = cfg.maxLines →
      rangeIngest cfg (l1 ++ l2) initAgg = rangeIngest cfg l1 initAgg) ∧
    ((rangeIngest capCfg [lineA, lineB] initAgg).stats.core.counts 1 = 1 ∧
      (rangeIngest capCfg [lineB, lineA] initAgg).stats.core.counts 1 = 0) := by
  refine ⟨?_, ?_, by decide⟩
  · intro hml
    have hinv := rangeIngest_invariant cfg lines initAgg (by simp [initAgg, initStats])
      (fun k _ => rfl) rfl
    rw [hinv.2.2]
    exact rangeIngest_n_le cfg lines initAgg (by simpa [initAgg] using hml)
  · intro hml hful
    exact rangeIngest_absorb cfg l1 l2 initAgg (by simpa [initAgg] using hml) hful

/-- Witness for `max_lines_cap`: with cap 1, the two-line input records a
total count of at most 1, and appending further input after the cap is hit
changes nothing. -/
theorem max_lines_cap_witness :
    sumCounts (rangeIngest capCfg [lineA, lineB] initAgg) ≤ capCfg.maxLines ∧
    rangeIngest capCfg ([lineA] ++ [lineB]) initAgg = rangeIngest capCfg [lineA] initAgg :=
  ⟨(max_lines_cap capCfg [lineA, lineB] [lineA] [lineB]).1 (by decide),
   (max_lines_cap capCfg [lineA, lineB] [lineA] [lineB]).2.1 (by decide) (by decide)⟩

/-! ## Configuration checking and the fatal-error surface of the tracker -/

/-- Claim C9 (amended): the tracker validates only `--ref-window` and `--bin`
before ingestion; the page size is never domain-checked.  Every fatal error
the core can raise is one of the five listed messages — none reports an
invalid page size, so a non-power-of-two page size is silently used to build
the page mask. -/
theorem hot_main_error_messages (cfg : HConfig) (input : List HSample) (e : String)
    (h : hotMain cfg input = .error e) :
    e = msgRefWindow ∨ e = msgBin ∨ e = msgNoSamples ∨ e = msgBaseline ∨ e = msgNoBins := by
  unfold hotMain at h
  split_ifs at h
  · exact Or.inl (Except.error.inj h).symm
  · exact Or.inr (Or.inl (Except.error.inj h).symm)
  · exact Or.inr (Or.inr (Or.inl (Except.error.inj h).symm))
  · exact Or.inr (Or.inr (Or.inr (Or.inl (Except.error.inj h).symm)))
  · exact Or.inr (Or.inr (Or.inr (Or.inr (Except.error.inj h).symm)))

/-- Witness for `hot_main_error_messages` at the invalid configuration with
`--ref-window` 0 (on empty input). -/
theorem hot_main_error_messages_witness :
    msgRefWindow = msgRefWindow ∨ msgRefWindow = msgBin ∨ msgRefWindow = msgNoSamples ∨
      msgRefWindow = msgBaseline ∨ msgRefWindow = msgNoBins :=
  hot_main_error_messages cfgBadRef [] msgRefWindow (by decide)

/-- Counterexample to claim C9 as stated: page size 3 is not a power of two,
yet the run is not rejected — it completes and produces the persistence
series. -/
theorem page_size_not_checked_cex :
    hotMain cfgPS3 inputW = .ok [0, 0, 0] ∧
    (2 : Int) ^ 1 < cfgPS3.pageSize ∧ cfgPS3.pageSize < 2 ^ 2 := by
  refine ⟨by decide, by norm_num [cfgPS3], by norm_num [cfgPS3]⟩

/-! ## Bin enumeration of the persistence series -/

theorem topkPages_nil (k : Int) : topkPages [] k = ∅ := by
  simp [topkPages, counterKeys, sortByDesc]

theorem persistPct_empty (B : Finset Nat) : persistPct B ∅ = 0 := by
  simp [persistPct]

/-- Claim C4: a successful run reports exactly one persistence value for
every bin index from 0 to the maximum observed index, in index order, and a
bin with no samples contributes the defined value 0 instead of being
skipped. -/
theorem bins_enumerated (cfg : HConfig) (input : List HSample) (l : List ℚ)
    (h : hotMain cfg input = .ok l) :
    0 ≤ binMaxIdx (ingestH cfg input) ∧
    l.length = (binMaxIdx (ingestH cfg input) + 1).toNat ∧
    (∀ i : Nat, ∀ hi : i < l.length,
        l.get ⟨i, hi⟩ = persistPct (topkPages (ingestH cfg input).baseline cfg.topk)
          (topkPages ((ingestH cfg input).bins i) cfg.topk)) ∧
    (∀ i : Nat, ∀ hi : i < l.length,
        (ingestH cfg input).bins i = [] → l.get ⟨i, hi⟩ = 0) := by
  unfold hotMain at h
  split_ifs at h with h1 h2 h3 h4 h5
  · have hl := Except.ok.inj h
    subst hl
    refine ⟨not_lt.mp h5, ?_, ?_, ?_⟩
    · simp only [pctStillHot, List.length_map, List.length_range]
    · intro i hi
      simp only [pctStillHot, List.get_eq_getElem, List.getElem_map, List.getElem_range]
    · intro i hi hbin
      simp only [pctStillHot, List.get_eq_getElem, List.getElem_map, List.getElem_range, hbin,
        topkPages_nil, persistPct_empty]

/-- Witness for `bins_enumerated`: the concrete run `cfgW`/`inputW` produces
three values, matching bins 0..2. -/
theorem bins_enumerated_witness :
    ([(0 : ℚ), 0, 0]).length = (binMaxIdx (ingestH cfgW inputW) + 1).toNat :=
  (bins_enumerated cfgW inputW [0, 0, 0] (by decide)).2.1

/-! ## Fatal cases of the Hot-Set Tracker -/

theorem foldl_hstep_t0 (cfg : HConfig) (l : List HSample) (st : IngestSt)
    (hp : st.t0 = none → st.baseline = [] ∧ st.binKeys = ∅) :
    (l.foldl (hstep cfg) st).t0 = none →
      (l.foldl (hstep cfg) st).baseline = [] ∧ (l.foldl (hstep cfg) st).binKeys = ∅ := by
  induction l generalizing st with
  | nil => exact hp
  | cons s ss ih =>
    simp only [List.foldl_cons]
    refine ih _ ?_
    unfold hstep
    split_ifs
    · exact hp
    · exact hp
    · exact hp
    · exact hp
    all_goals intro hnone
    all_goals exact absurd hnone (by simp)

theorem hstep_binKeys (cfg : HConfig) (st : IngestSt) (s : HSample) (h2 : 0 < cfg.binSize) :
    (hstep cfg st s).binKeys = st.binKeys ∨
    ∃ idx : Int, 0 ≤ idx ∧ (hstep cfg st s).binKeys = insert idx st.binKeys := by
  unfold hstep
  by_cases g1 : s.event ≠ cfg.eventFilter
  · rw [if_pos g1]
    exact Or.inl rfl
  rw [if_neg g1]
  by_cases g2 : s.addr = 0
  · rw [if_pos g2]
    exact Or.inl rfl
  rw [if_neg g2]
  by_cases g3 : dropBelow cfg.addrMin s.addr = true
  · rw [if_pos g3]
    exact Or.inl rfl
  rw [if_neg g3]
  by_cases g4 : dropAtLeast cfg.addrMax s.addr = true
  · rw [if_pos g4]
    exact Or.inl rfl
  rw [if_neg g4]
  by_cases g5 : s.time - st.t0.getD s.time < 0
  · rw [if_pos g5]
    exact Or.inl rfl
  rw [if_neg g5]
  by_cases g6 : dropLate cfg.maxTime (s.time - st.t0.getD s.time) = true
  · rw [if_pos g6]
    exact Or.inl rfl
  rw [if_neg g6]
  by_cases g7 : cfg.refStart ≤ s.time - st.t0.getD s.time ∧
      s.time - st.t0.getD s.time < cfg.refStart + cfg.refWindow
  · rw [if_pos g7]
    exact Or.inl rfl
  rw [if_neg g7]
  by_cases g8 : cfg.refStart + cfg.refWindow ≤ s.time - st.t0.getD s.time
  · rw [if_pos g8]
    refine Or.inr ⟨_, ?_, rfl⟩
    refine Int.floor_nonneg.mpr (div_nonneg ?_ h2.le)
    linarith
  · rw [if_neg g8]
    exact Or.inl rfl

theorem foldl_hstep_binKeys_nonneg (cfg : HConfig) (h2 : 0 < cfg.binSize)
    (l : List HSample) (st : IngestSt) (hp : ∀ j ∈ st.binKeys, 0 ≤ j) :
    ∀ j ∈ (l.foldl (hstep cfg) st).binKeys, 0 ≤ j := by
  induction l generalizing st with
  | nil => exact hp
  | cons s ss ih =>
    simp only [List.foldl_cons]
    refine ih _ ?_
    rcases hstep_binKeys cfg st s h2 with he | ⟨idx, hidx, he⟩
    · rw [he]
      exact hp
    · rw [he]
      intro j hj
      rcases Finset.mem_insert.mp hj with rfl | hj2
      · exact hidx
      · exact hp j hj2

theorem insertByDesc_ne_nil (cnt : Nat → Nat) (x : Nat) (l : List Nat) :
    insertByDesc cnt x l ≠ [] := by
  cases l with
  | nil => simp [insertByDesc]
  | cons y ys =>
    unfold insertByDesc
    split_ifs <;> simp

theorem sortByDesc_ne_nil (cnt : Nat → Nat) (l : List Nat) (h : l ≠ []) :
    sortByDesc cnt l ≠ [] := by
  cases l with
  | nil => exact absurd rfl h
  | cons x xs =>
    simp only [sortByDesc]
    exact insertByDesc_ne_nil cnt x _

theorem topkPages_ne_empty (l : List Nat) (hl : l ≠ []) (k : Int) (hk : 1 ≤ k) :
    topkPages l k ≠ ∅ := by
  unfold topkPages
  obtain ⟨p, ps, rfl⟩ := List.exists_cons_of_ne_nil hl
  have h1 : counterKeys (p :: ps) ≠ [] := by simp [counterKeys]
  have h2 : sortByDesc (fun q => (p :: ps).count q) (counterKeys (p :: ps)) ≠ [] :=
    sortByDesc_ne_nil _ _ h1
  obtain ⟨y, ys, hys⟩ := List.exists_cons_of_ne_nil h2
  rw [hys]
  obtain ⟨m, hm⟩ : ∃ m, k.toNat = m + 1 := ⟨k.toNat - 1, by omega⟩
  rw [hm, List.take_succ_cons, List.toFinset_cons]
  exact Finset.insert_ne_empty y _

theorem binMaxIdx_neg_iff (st : IngestSt) (hnn : ∀ j ∈ st.binKeys, 0 ≤ j) :
    binMaxIdx st < 0 ↔ st.binKeys = ∅ := by
  unfold binMaxIdx
  rcases eq_or_ne st.binKeys ∅ with he | he
  · rw [he]
    simp only [Finset.max_empty, WithBot.unbot'_bot]
    norm_num
  · obtain ⟨m, hm⟩ := Finset.max_of_nonempty (Finset.nonempty_iff_ne_empty.mpr he)
    rw [hm]
    simp only [WithBot.unbot'_coe]
    constructor
    · intro hlt
      exact absurd hlt (not_lt.mpr (hnn m (Finset.mem_of_max hm)))
    · intro h
      exact absurd h he

/-- Claim C5: with a valid configuration (positive baseline window, positive
bin width, positive Top-K), the tracker errors out when the baseline window
holds no samples (with a message distinct from the no-bins message), errors
out with the dedicated message when no accepted sample falls after the
baseline window, and otherwise produces the persistence series. -/
theorem tracker_fatal_cases (cfg : HConfig) (input : List HSample)
    (h1 : 0 < cfg.refWindow) (h2 : 0 < cfg.binSize) (h3 : 1 ≤ cfg.topk) :
    ((ingestH cfg input).baseline = [] →
      ∃ e, hotMain cfg input = .error e ∧ e ≠ msgNoBins) ∧
    ((ingestH cfg input).baseline ≠ [] → (ingestH cfg input).binKeys = ∅ →
      hotMain cfg input = .error msgNoBins) ∧
    ((ingestH cfg input).baseline ≠ [] → (ingestH cfg input).binKeys ≠ ∅ →
      ∃ out, hotMain cfg input = .ok out) := by
  have hc1 : ¬(cfg.refStart + cfg.refWindow ≤ cfg.refStart) := by linarith
  have hc2 : ¬(cfg.binSize ≤ 0) := not_le.mpr h2
  have hnn : ∀ j ∈ (ingestH cfg input).binKeys, 0 ≤ j :=
    foldl_hstep_binKeys_nonneg cfg h2 input initH (by simp [initH])
  refine ⟨?_, ?_, ?_⟩
  · intro hb
    unfold hotMain
    rw [if_neg hc1, if_neg hc2]
    by_cases ht : (ingestH cfg input).t0 = none
    · rw [if_pos ht]
      exact ⟨msgNoSamples, rfl, by decide⟩
    · rw [if_neg ht]
      have hempty : topkPages (ingestH cfg input).baseline cfg.topk = ∅ := by
        rw [hb]
        exact topkPages_nil cfg.topk
      rw [if_pos hempty]
      exact ⟨msgBaseline, rfl, by decide⟩
  · intro hb hk
    unfold hotMain
    rw [if_neg hc1, if_neg hc2]
    have ht : ¬(ingestH cfg input).t0 = none := by
      intro hnone
      exact hb (foldl_hstep_t0 cfg input initH (fun _ => ⟨rfl, rfl⟩) hnone).1
    rw [if_neg ht]
    have hne : ¬topkPages (ingestH cfg input).baseline cfg.topk = ∅ :=
      topkPages_ne_empty _ hb cfg.topk h3
    rw [if_neg hne]
    rw [if_pos ((binMaxIdx_neg_iff _ hnn).mpr hk)]
  · intro hb hk
    unfold hotMain
    rw [if_neg hc1, if_neg hc2]
    have ht : ¬(ingestH cfg input).t0 = none := by
      intro hnone
      exact hb (foldl_hstep_t0 cfg input initH (fun _ => ⟨rfl, rfl⟩) hnone).1
    rw [if_neg ht]
    have hne : ¬topkPages (ingestH cfg input).baseline cfg.topk = ∅ :=
      topkPages_ne_empty _ hb cfg.topk h3
    rw [if_neg hne]
    have hmax : ¬binMaxIdx (ingestH cfg input) < 0 := by
      rw [binMaxIdx_neg_iff _ hnn]
      exact hk
    rw [if_neg hmax]
    exact ⟨_, rfl⟩

/-- Witness for `tracker_fatal_cases`: the concrete run `cfgW`/`inputW` has a
non-empty baseline and an observed bin, and indeed succeeds. -/
theorem tracker_fatal_cases_witness :
    ∃ out, hotMain cfgW inputW = .ok out :=
  (tracker_fatal_cases cfgW inputW (by decide) (by decide) (by decide)).2.2
    (by decide) (by decide)

/-! ## Optimality of the `best` window strategy -/

theorem mem_insertAsc (x y : Int) (l : List Int) : y ∈ insertAsc x l ↔ y = x ∨ y ∈ l := by
  induction l with
  | nil => simp [insertAsc]
  | cons z zs ih =>
    simp only [insertAsc]
    split_ifs
    · simp [List.mem_cons]
    · simp only [List.mem_cons, ih]
      tauto

theorem mem_sortAsc (x : Int) (l : List Int) : x ∈ sortAsc l ↔ x ∈ l := by
  induction l with
  | nil => simp [sortAsc]
  | cons z zs ih => simp [sortAsc, mem_insertAsc, ih]

theorem sortAsc_ne_nil (l : List Int) (h : l ≠ []) : sortAsc l ≠ [] := by
  cases l with
  | nil => exact absurd rfl h
  | cons x xs =>
    simp only [sortAsc]
    cases hs : sortAsc xs with
    | nil => simp [insertAsc]
    | cons y ys =>
      simp only [insertAsc]
      split_ifs <;> simp

theorem headI_mem_of_ne_nil (l : List Int) (h : l ≠ []) : l.headI ∈ l := by
  cases l with
  | nil => exact absurd rfl h
  | cons x xs => exact List.mem_cons_self x xs

theorem foldl_min_le_init (xs : List Int) (b : Int) : xs.foldl min b ≤ b := by
  induction xs generalizing b with
  | nil => exact le_refl b
  | cons y ys ih =>
    simp only [List.foldl_cons]
    exact (ih (min b y)).trans (min_le_left b y)

theorem foldl_min_le_mem (xs : List Int) (b x : Int) (hx : x ∈ xs) : xs.foldl min b ≤ x := by
  induction xs generalizing b with
  | nil => cases hx
  | cons y ys ih =>
    simp only [List.foldl_cons]
    rcases List.mem_cons.mp hx with rfl | h
    · exact (foldl_min_le_init ys (min b x)).trans (min_le_right b x)
    · exact ih (min b y) h

theorem foldl_min_mem_or (xs : List Int) (b : Int) :
    xs.foldl min b = b ∨ xs.foldl min b ∈ xs := by
  induction xs generalizing b with
  | nil => exact Or.inl rfl
  | cons y ys ih =>
    simp only [List.foldl_cons]
    rcases ih (min b y) with h | h
    · rcases min_choice b y with hm | hm
      · exact Or.inl (h.trans hm)
      · exact Or.inr (List.mem_cons.mpr (Or.inl (h.trans hm)))
    · exact Or.inr (List.mem_cons.mpr (Or.inr h))

theorem le_foldl_max_init (xs : List Int) (b : Int) : b ≤ xs.foldl max b := by
  induction xs generalizing b with
  | nil => exact le_refl b
  | cons y ys ih =>
    simp only [List.foldl_cons]
    exact (le_max_left b y).trans (ih (max b y))

theorem le_foldl_max_mem (xs : List Int) (b x : Int) (hx : x ∈ xs) : x ≤ xs.foldl max b := by
  induction xs generalizing b with
  | nil => cases hx
  | cons y ys ih =>
    simp only [List.foldl_cons]
    rcases List.mem_cons.mp hx with rfl | h
    · exact (le_max_right b x).trans (le_foldl_max_init ys (max b x))
    · exact ih (max b y) h

theorem foldl_max_mem_or (xs : List Int) (b : Int) :
    xs.foldl max b = b ∨ xs.foldl max b ∈ xs := by
  induction xs generalizing b with
  | nil => exact Or.inl rfl
  | cons y ys ih =>
    simp only [List.foldl_cons]
    rcases ih (max b y) with h | h
    · rcases max_choice b y with hm | hm
      · exact Or.inl (h.trans hm)
      · exact Or.inr (List.mem_cons.mpr (Or.inl (h.trans hm)))
    · exact Or.inr (List.mem_cons.mpr (Or.inr h))

theorem listMin_cons (y : Int) (ys : List Int) : listMin (y :: ys) = ys.foldl min y := rfl

theorem listMax_cons (y : Int) (ys : List Int) : listMax (y :: ys) = ys.foldl max y := rfl

theorem listMin_le (l : List Int) (x : Int) (hx : x ∈ l) : listMin l ≤ x := by
  cases l with
  | nil => cases hx
  | cons y ys =>
    rw [listMin_cons]
    rcases List.mem_cons.mp hx with rfl | h
    · exact foldl_min_le_init ys x
    · exact foldl_min_le_mem ys y x h

theorem listMin_mem (l : List Int) (h : l ≠ []) : listMin l ∈ l := by
  cases l with
  | nil => exact absurd rfl h
  | cons y ys =>
    rw [listMin_cons]
    rcases foldl_min_mem_or ys y with he | hm
    · rw [he]
      exact List.mem_cons_self y ys
    · exact List.mem_cons_of_mem y hm

theorem le_listMax (l : List Int) (x : Int) (hx : x ∈ l) : x ≤ listMax l := by
  cases l with
  | nil => cases hx
  | cons y ys =>
    rw [listMax_cons]
    rcases List.mem_cons.mp hx with rfl | h
    · exact le_foldl_max_init ys x
    · exact le_foldl_max_mem ys y x h

theorem listMax_mem (l : List Int) (h : l ≠ []) : listMax l ∈ l := by
  cases l with
  | nil => exact absurd rfl h
  | cons y ys =>
    rw [listMax_cons]
    rcases foldl_max_mem_or ys y with he | hm
    · rw [he]
      exact List.mem_cons_self y ys
    · exact List.mem_cons_of_mem y hm

theorem windowSum_eq_Ico (c : Int → Nat) (w : Nat) (s : Int) :
    windowSum c w s = ∑ b ∈ Finset.Ico s (s + (w : Int)), c b := by
  induction w with
  | zero => simp [windowSum]
  | succ n ih =>
    have hins : Finset.Ico s (s + ((n : Int) + 1)) = insert (s + n) (Finset.Ico s (s + n)) := by
      ext b
      simp only [Finset.mem_Ico, Finset.mem_insert]
      omega
    have hnotmem : s + (n : Int) ∉ Finset.Ico s (s + (n : Int)) := by
      simp [Finset.mem_Ico]
    unfold windowSum at ih ⊢
    rw [Finset.sum_range_succ, ih]
    push_cast
    rw [hins, Finset.sum_insert hnotmem]
    omega

theorem windowSum_eq_inter (c : Int → Nat) (keys : List Int) (hc : ∀ b ∉ keys, c b = 0)
    (w : Nat) (s : Int) :
    windowSum c w s = ∑ b ∈ Finset.Ico s (s + (w : Int)) ∩ keys.toFinset, c b := by
  rw [windowSum_eq_Ico]
  refine (Finset.sum_subset Finset.inter_subset_left ?_).symm
  intro x hx hnx
  refine hc x ?_
  intro hmem
  exact hnx (Finset.mem_inter.mpr ⟨hx, List.mem_toFinset.mpr hmem⟩)

theorem windowSum_le_windowSum (c : Int → Nat) (keys : List Int) (hc : ∀ b ∉ keys, c b = 0)
    (w : Nat) (s t : Int)
    (hsub : Finset.Ico s (s + (w : Int)) ∩ keys.toFinset ⊆
      Finset.Ico t (t + (w : Int)) ∩ keys.toFinset) :
    windowSum c w s ≤ windowSum c w t := by
  rw [windowSum_eq_inter c keys hc, windowSum_eq_inter c keys hc]
  exact Finset.sum_le_sum_of_subset hsub

theorem bestLoop_snd_mono (c : Int → Nat) (w : Nat) (l : List Int) (st : Int × Int) :
    st.2 ≤ (bestLoop c w l st).2 := by
  induction l generalizing st with
  | nil => exact le_refl _
  | cons s rest ih =>
    simp only [bestLoop]
    split_ifs with h
    · exact (le_of_lt h).trans (ih (s, (windowSum c w s : Int)))
    · exact ih st

theorem bestLoop_le_of_mem (c : Int → Nat) (w : Nat) (l : List Int) (st : Int × Int)
    (x : Int) (hx : x ∈ l) :
    (windowSum c w x : Int) ≤ (bestLoop c w l st).2 := by
  induction l generalizing st with
  | nil => cases hx
  | cons s rest ih =>
    simp only [bestLoop]
    rcases List.mem_cons.mp hx with rfl | h
    · split_ifs with hlt
      · exact bestLoop_snd_mono c w rest (x, (windowSum c w x : Int))
      · exact (not_lt.mp hlt).trans (bestLoop_snd_mono c w rest st)
    · split_ifs with hlt
      · exact ih _ h
      · exact ih _ h

theorem bestLoop_fix (c : Int → Nat) (w : Nat) (l : List Int) (st : Int × Int) :
    bestLoop c w l st = st ∨
    (bestLoop c w l st).2 = (windowSum c w (bestLoop c w l st).1 : Int) := by
  induction l generalizing st with
  | nil => exact Or.inl rfl
  | cons s rest ih =>
    simp only [bestLoop]
    split_ifs with h
    · rcases ih (s, (windowSum c w s : Int)) with he | hp
      · rw [he]
        exact Or.inr rfl
      · exact Or.inr hp
    · exact ih st

theorem mem_candList_intro (keys : List Int) (w : Nat) (x : Int)
    (hx : x ∈ keys ∨ ∃ b ∈ keys, x = b - (w : Int) + 1)
    (hlo : listMin keys ≤ x) (hhi : x ≤ feasHi keys w) :
    x ∈ candList keys w := by
  have hmem : x ∈ sortAsc ((candStarts keys w).filter
      (fun s => decide (listMin keys ≤ s ∧ s ≤ feasHi keys w))) := by
    rw [mem_sortAsc, List.mem_filter]
    constructor
    · unfold candStarts
      rw [List.mem_dedup, List.mem_append]
      rcases hx with h | ⟨b, hb, rfl⟩
      · exact Or.inl h
      · exact Or.inr (List.mem_map.mpr ⟨b, hb, rfl⟩)
    · exact decide_eq_true ⟨hlo, hhi⟩
  unfold candList
  rw [if_neg]
  · exact hmem
  · intro he
    rw [he] at hmem
    cases hmem

theorem candList_ne_nil (keys : List Int) (w : Nat) (hk : keys ≠ []) :
    candList keys w ≠ [] := by
  have h2 : listMin keys ≤ feasHi keys w := by
    unfold feasHi
    split_ifs with h
    · exact le_refl _
    · exact not_lt.mp h
  have hmem := mem_candList_intro keys w (listMin keys)
    (Or.inl (listMin_mem keys hk)) (le_refl _) h2
  intro he
  rw [he] at hmem
  cases hmem

/-- Claim C1: for every final bucket-stats map (support `keys`, counts `c`)
and width `w ≥ 1`, the `best` strategy returns a start whose window total is
at least the total of every window starting in the feasible range
`[b_min, b_max - w + 1]`, although only candidate starts derived from
observed buckets are examined. -/
theorem best_window_maximal (c : Int → Nat) (keys : List Int) (w : Nat)
    (hk : keys ≠ []) (hw : 1 ≤ w) (hc : ∀ b ∉ keys, c b = 0)
    (s : Int) (hlo : listMin keys ≤ s) (hhi : s ≤ listMax keys - (w : Int) + 1) :
    windowSum c w s ≤ windowSum c w (bestSearch c keys w).1 := by
  have hfeas : listMin keys ≤ listMax keys - (w : Int) + 1 := le_trans hlo hhi
  have hHi : feasHi keys w = listMax keys - (w : Int) + 1 := by
    unfold feasHi
    rw [if_neg (not_lt.mpr hfeas)]
  have hcands : candList keys w ≠ [] := candList_ne_nil keys w hk
  have hhead : (candList keys w).headI ∈ candList keys w := headI_mem_of_ne_nil _ hcands
  have hfix : (bestSearch c keys w).2 = (windowSum c w (bestSearch c keys w).1 : Int) := by
    rcases bestLoop_fix c w (candList keys w) ((candList keys w).headI, -1) with he | hp
    · exfalso
      have h0 : (windowSum c w (candList keys w).headI : Int) ≤
          (bestLoop c w (candList keys w) ((candList keys w).headI, -1)).2 :=
        bestLoop_le_of_mem c w _ _ _ hhead
      rw [he] at h0
      have h1 : (0 : Int) ≤ (windowSum c w (candList keys w).headI : Int) :=
        Int.natCast_nonneg _
      simp only at h0
      omega
    · exact hp
  have hcand : ∃ x ∈ candList keys w, windowSum c w s ≤ windowSum c w x := by
    by_cases hT : (Finset.Ico s (s + (w : Int)) ∩ keys.toFinset).Nonempty
    · obtain ⟨b0, hb0T, hb0min⟩ :
          ∃ b0 ∈ Finset.Ico s (s + (w : Int)) ∩ keys.toFinset,
            ∀ b ∈ Finset.Ico s (s + (w : Int)) ∩ keys.toFinset, b0 ≤ b :=
        ⟨_, Finset.min'_mem _ hT, fun b hb => Finset.min'_le _ b hb⟩
      have hb0keys : b0 ∈ keys := List.mem_toFinset.mp (Finset.mem_inter.mp hb0T).2
      have hb0rng := Finset.mem_Ico.mp (Finset.mem_inter.mp hb0T).1
      by_cases hcase : b0 ≤ listMax keys - (w : Int) + 1
      · refine ⟨b0, ?_, ?_⟩
        · refine mem_candList_intro keys w _ (Or.inl hb0keys)
            (listMin_le keys _ hb0keys) ?_
          rw [hHi]
          exact hcase
        · refine windowSum_le_windowSum c keys hc w s _ ?_
          intro b hb
          have hbk := (Finset.mem_inter.mp hb).2
          have hbr := Finset.mem_Ico.mp (Finset.mem_inter.mp hb).1
          have hminle : b0 ≤ b := hb0min b hb
          refine Finset.mem_inter.mpr ⟨Finset.mem_Ico.mpr ⟨hminle, ?_⟩, hbk⟩
          omega
      · push_neg at hcase
        refine ⟨listMax keys - (w : Int) + 1, ?_, ?_⟩
        · refine mem_candList_intro keys w _
            (Or.inr ⟨listMax keys, listMax_mem keys hk, rfl⟩) hfeas ?_
          rw [hHi]
        · refine windowSum_le_windowSum c keys hc w s _ ?_
          intro b hb
          have hbk := (Finset.mem_inter.mp hb).2
          have hbkeys : b ∈ keys := List.mem_toFinset.mp hbk
          have hbr := Finset.mem_Ico.mp (Finset.mem_inter.mp hb).1
          have hminle : b0 ≤ b := hb0min b hb
          have hbmax : b ≤ listMax keys := le_listMax keys b hbkeys
          refine Finset.mem_inter.mpr ⟨Finset.mem_Ico.mpr ⟨?_, ?_⟩, hbk⟩
          · omega
          · omega
    · refine ⟨(candList keys w).headI, hhead, ?_⟩
      rw [windowSum_eq_inter c keys hc w s, Finset.not_nonempty_iff_eq_empty.mp hT,
        Finset.sum_empty]
      exact Nat.zero_le _
  obtain ⟨x, hxmem, hxge⟩ := hcand
  have hloop : (windowSum c w x : Int) ≤ (bestSearch c keys w).2 :=
    bestLoop_le_of_mem c w _ _ _ hxmem
  rw [hfix] at hloop
  have hfin : windowSum c w x ≤ windowSum c w (bestSearch c keys w).1 := by
    exact_mod_cast hloop
  exact le_trans hxge hfin

/-- Witness for `best_window_maximal` on keys `[0, 2]` with counts `3, 5`,
width 2, comparing against the feasible start 0. -/
theorem best_window_maximal_witness :
    windowSum c1counts 2 0 ≤ windowSum c1counts 2 (bestSearch c1counts [0, 2] 2).1 :=
  best_window_maximal c1counts [0, 2] 2 (by decide) (by decide)
    (by
      intro b hb
      simp only [List.mem_cons, List.mem_singleton] at hb
      push_neg at hb
      simp [c1counts, hb.1, hb.2])
    0 (by decide) (by decide)
